import Mathlib

/-!
Verification of the bike-sharing ETL pipeline (`dags/bike_sharing_etl.py`).

The five pipeline stages are embedded shallowly: a table is a `List` of row
records, numeric columns are exact rationals or integers, and each stage is a
Lean function mirroring the corresponding `transform_*` function of the DAG.
-/

open List

namespace BikeETL

/-- Calendar date, as stored in the `dteday` column after `pd.to_datetime`. -/
structure Date where
  year : Int
  month : Int
  day : Int
deriving DecidableEq

/-- Chronological order on calendar dates: lexicographic on (year, month, day). -/
def dLe (a b : Date) : Prop :=
  a.year < b.year ∨ (a.year = b.year ∧
    (a.month < b.month ∨ (a.month = b.month ∧ a.day ≤ b.day)))

instance : DecidableRel dLe := fun a b => by
  unfold dLe
  infer_instance

/-- Leap-year test of the proleptic Gregorian calendar. -/
def isLeap (y : Int) : Bool :=
  (Int.emod y 4 == 0 && Int.emod y 100 != 0) || Int.emod y 400 == 0

/-- Day count of a Gregorian date, increasing by one per calendar day
(days since 0000-03-01, shifted-month form). It underlies the day-of-week
and day-of-year computations of the datetime library. -/
def dayNumber (dt : Date) : Int :=
  let y := if dt.month ≤ 2 then dt.year - 1 else dt.year
  let m := if dt.month ≤ 2 then dt.month + 12 else dt.month
  365 * y + Int.fdiv y 4 - Int.fdiv y 100 + Int.fdiv y 400 +
    Int.fdiv (153 * (m - 3) + 2) 5 + dt.day - 1

/-- ISO day of the week: 1 = Monday .. 7 = Sunday. -/
def isoWeekday (dt : Date) : Int :=
  Int.emod (dayNumber dt + 2) 7 + 1

/-- Ordinal day within the calendar year (January 1st is day 1). -/
def ordinalDay (dt : Date) : Int :=
  dayNumber dt - dayNumber ⟨dt.year, 1, 1⟩ + 1

/-- Number of ISO weeks in ISO year `y`: 53 when January 1st falls on a
Thursday, or on a Wednesday in a leap year; otherwise 52. -/
def isoWeeksInYear (y : Int) : Int :=
  let wd := isoWeekday ⟨y, 1, 1⟩
  if wd = 4 ∨ (isLeap y ∧ wd = 3) then 53 else 52

/-- ISO-8601 (year, week number) pair of a date, as returned by the
`isocalendar()` method of the datetime library. -/
def isoCalendar (dt : Date) : Int × Int :=
  let w := Int.fdiv (ordinalDay dt - isoWeekday dt + 10) 7
  if w < 1 then (dt.year - 1, isoWeeksInYear (dt.year - 1))
  else if isoWeeksInYear dt.year < w then (dt.year + 1, 1)
  else (dt.year, w)

/-- ISO week number of a date: `dteday.dt.isocalendar().week`. -/
def isoWeek (dt : Date) : Int := (isoCalendar dt).2

/-- ISO year of a date (`isocalendar().year`). The weekly grouping of the
source code does not use it; it is the comparison point for the spec's
description of the weekly grouping key. -/
def isoYear (dt : Date) : Int := (isoCalendar dt).1

/-- Validated row record: the 17 columns of `hour.csv` after
`extract_and_validate`, with `dteday` parsed to a date. Numeric columns are
modelled as exact rationals; the count columns of the source file are
integers. -/
structure Row where
  instant : Int
  dteday : Date
  season : ℚ
  yr : ℚ
  mnth : ℚ
  hr : ℚ
  holiday : ℚ
  weekday : ℚ
  workingday : ℚ
  weathersit : ℚ
  temp : ℚ
  atemp : ℚ
  hum : ℚ
  windspeed : ℚ
  casual : Int
  registered : Int
  cnt : Int
deriving DecidableEq

/-- Cleaned row record: the eight categorical columns coerced to integers by
`astype(int)`, and the four denormalized climate columns appended. -/
structure CleanRow where
  instant : Int
  dteday : Date
  season : Int
  yr : Int
  mnth : Int
  hr : Int
  holiday : Int
  weekday : Int
  workingday : Int
  weathersit : Int
  temp : ℚ
  atemp : ℚ
  hum : ℚ
  windspeed : ℚ
  casual : Int
  registered : Int
  cnt : Int
  temp_celsius : ℚ
  atemp_celsius : ℚ
  humidity_pct : ℚ
  windspeed_kmh : ℚ
deriving DecidableEq

/-- Enriched row record: cleaned row plus the six derived feature columns of
`transform_feature_engineering`. Label columns are `Option`-valued because
`Series.map` yields a missing value for a code absent from the mapping. -/
structure FeatRow extends CleanRow where
  is_peak_hour : Bool
  is_weekend : Bool
  season_name : Option String
  weather_desc : Option String
  day_name : Option String
  month_name : Option String
deriving DecidableEq

/-- Integer coercion performed by `astype(int)` on a numeric column:
truncation toward zero. -/
def truncQ (q : ℚ) : Int := if 0 ≤ q then q.floor else q.ceil

/-- Deduplication key of the Cleaner: the `subset=['dteday', 'hr']` columns,
read before the integer coercion of `hr`. -/
def rowKey (r : Row) : Date × ℚ := (r.dteday, r.hr)

/-- Accumulator form of first-occurrence deduplication: a row is kept when
its key has not been seen before. -/
def dropDupAux (key : α → κ) [DecidableEq κ] : List α → List κ → List α
  | [], _ => []
  | a :: t, seen =>
      if key a ∈ seen then dropDupAux key t seen
      else a :: dropDupAux key t (key a :: seen)

/-- Model of `DataFrame.drop_duplicates(subset=key, keep='first')`: keeps the
first row bearing each key and removes every later row whose key already
occurred, preserving input order. -/
def dropDuplicates (key : α → κ) [DecidableEq κ] (l : List α) : List α :=
  dropDupAux key l []

/-- Per-row effect of `transform_clean_and_denormalize`: coerce the eight
categorical columns with `astype(int)` and append the four denormalized
climate columns `temp * 41`, `atemp * 50`, `hum * 100`, `windspeed * 67`. -/
def cleanRow (r : Row) : CleanRow where
  instant := r.instant
  dteday := r.dteday
  season := truncQ r.season
  yr := truncQ r.yr
  mnth := truncQ r.mnth
  hr := truncQ r.hr
  holiday := truncQ r.holiday
  weekday := truncQ r.weekday
  workingday := truncQ r.workingday
  weathersit := truncQ r.weathersit
  temp := r.temp
  atemp := r.atemp
  hum := r.hum
  windspeed := r.windspeed
  casual := r.casual
  registered := r.registered
  cnt := r.cnt
  temp_celsius := r.temp * 41
  atemp_celsius := r.atemp * 50
  humidity_pct := r.hum * 100
  windspeed_kmh := r.windspeed * 67

/-- Cleaner stage `transform_clean_and_denormalize`: drop later
`(dteday, hr)` duplicates keeping the first occurrence, then coerce the
categorical columns and append the climate columns. -/
def transform_clean_and_denormalize (l : List Row) : List CleanRow :=
  (dropDuplicates rowKey l).map cleanRow

/-- Deduplication key of the Cleaner when re-run on its own output, where the
`hr` column is already an integer. -/
def cleanRowKey (c : CleanRow) : Date × Int := (c.dteday, c.hr)

/-- Per-row effect of re-running the Cleaner on a table that already carries
the climate columns: `astype(int)` on integer columns is the identity, and
the four climate columns are recomputed (overwritten) from the normalized
columns. -/
def recleanRow (c : CleanRow) : CleanRow :=
  { c with
    temp_celsius := c.temp * 41
    atemp_celsius := c.atemp * 50
    humidity_pct := c.hum * 100
    windspeed_kmh := c.windspeed * 67 }

/-- The Cleaner applied to its own output. -/
def cleanAgain (l : List CleanRow) : List CleanRow :=
  (dropDuplicates cleanRowKey l).map recleanRow

/-- The `season_map` dictionary of `transform_feature_engineering`. -/
def season_map (s : Int) : Option String :=
  if s = 1 then some "Spring"
  else if s = 2 then some "Summer"
  else if s = 3 then some "Fall"
  else if s = 4 then some "Winter"
  else none

/-- The `weather_map` dictionary of `transform_feature_engineering`. -/
def weather_map (w : Int) : Option String :=
  if w = 1 then some "Clear/Partly Cloudy"
  else if w = 2 then some "Mist/Cloudy"
  else if w = 3 then some "Light Rain/Snow"
  else if w = 4 then some "Heavy Rain/Snow"
  else none

/-- The `day_map` dictionary of `transform_feature_engineering`. -/
def day_map (d : Int) : Option String :=
  if d = 0 then some "Sunday"
  else if d = 1 then some "Monday"
  else if d = 2 then some "Tuesday"
  else if d = 3 then some "Wednesday"
  else if d = 4 then some "Thursday"
  else if d = 5 then some "Friday"
  else if d = 6 then some "Saturday"
  else none

/-- The `month_map` dictionary of `transform_feature_engineering`. -/
def month_map (m : Int) : Option String :=
  if m = 1 then some "January"
  else if m = 2 then some "February"
  else if m = 3 then some "March"
  else if m = 4 then some "April"
  else if m = 5 then some "May"
  else if m = 6 then some "June"
  else if m = 7 then some "July"
  else if m = 8 then some "August"
  else if m = 9 then some "September"
  else if m = 10 then some "October"
  else if m = 11 then some "November"
  else if m = 12 then some "December"
  else none

/-- Per-row effect of `transform_feature_engineering`: the peak-hour flag
`(7 <= hr <= 9) or (17 <= hr <= 19)`, the weekend flag `weekday in [0, 6]`,
and the four label columns obtained through `Series.map`. -/
def enrichRow (c : CleanRow) : FeatRow where
  toCleanRow := c
  is_peak_hour := decide ((7 ≤ c.hr ∧ c.hr ≤ 9) ∨ (17 ≤ c.hr ∧ c.hr ≤ 19))
  is_weekend := decide (c.weekday = 0 ∨ c.weekday = 6)
  season_name := season_map c.season
  weather_desc := weather_map c.weathersit
  day_name := day_map c.weekday
  month_name := month_map c.mnth

/-- Feature Enricher stage `transform_feature_engineering`: appends the six
derived columns to every row; no row is dropped or reordered. -/
def transform_feature_engineering (l : List CleanRow) : List FeatRow :=
  l.map enrichRow

/-- Largest multiplicity attained by any value of the list. -/
def maxCount (l : List Int) : Nat :=
  (l.map fun v => l.count v).foldr max 0

/-- Model of `Series.mode()`: the values of maximal multiplicity, listed in
ascending order. -/
def modeList (l : List Int) : List Int :=
  (l.dedup.insertionSort (· ≤ ·)).filter fun v => decide (l.count v = maxCount l)

/-- Model of `x.mode()[0] if not x.mode().empty else x.iloc[0]`, the weather
reduction of the daily aggregation. -/
def mostCommon (l : List Int) : Int :=
  (modeList l).headD (l.headD 0)

/-- Daily aggregate record: the named columns given to `daily_agg.columns`. -/
structure DailyRec where
  date : Date
  total_rentals : Int
  casual_users : Int
  registered_users : Int
  avg_temp_celsius : ℚ
  avg_humidity_pct : ℚ
  avg_windspeed_kmh : ℚ
  most_common_weather : Int
  peak_hours_count : Int
  is_weekend : Bool
deriving DecidableEq

/-- One output row of `df.groupby('dteday').agg(...)` for the date `k`,
aggregating the rows `g` of that date. -/
def mkDailyRec (k : Date) (g : List FeatRow) : DailyRec where
  date := k
  total_rentals := (g.map fun e => e.cnt).sum
  casual_users := (g.map fun e => e.casual).sum
  registered_users := (g.map fun e => e.registered).sum
  avg_temp_celsius := (g.map fun e => e.temp_celsius).sum / (g.length : ℚ)
  avg_humidity_pct := (g.map fun e => e.humidity_pct).sum / (g.length : ℚ)
  avg_windspeed_kmh := (g.map fun e => e.windspeed_kmh).sum / (g.length : ℚ)
  most_common_weather := mostCommon (g.map fun e => e.weathersit)
  peak_hours_count := (g.map fun e => if e.is_peak_hour then (1 : Int) else 0).sum
  is_weekend := g.any fun e => e.is_weekend

/-- Group keys of a pandas `groupby`: the distinct key values of the table,
in ascending key order. -/
def groupKeys (key : α → κ) (le : κ → κ → Prop) [DecidableRel le] [DecidableEq κ]
    (l : List α) : List κ :=
  ((l.map key).dedup).insertionSort le

/-- Daily aggregation of `transform_aggregations`: group the enriched table
by `dteday` and reduce each group. -/
def dailyAgg (l : List FeatRow) : List DailyRec :=
  (groupKeys (fun e => e.dteday) dLe l).map fun k =>
    mkDailyRec k (l.filter fun e => decide (e.dteday = k))

/-- Ascending order on weekly group keys. -/
def pairLe (a b : Int × Int) : Prop :=
  a.1 < b.1 ∨ (a.1 = b.1 ∧ a.2 ≤ b.2)

instance : DecidableRel pairLe := fun a b => by
  unfold pairLe
  infer_instance

/-- Grouping key of the weekly aggregation, as computed by the source:
`df['year'] = df['dteday'].dt.year` (the calendar year) and
`df['week'] = df['dteday'].dt.isocalendar().week` (the ISO week number). -/
def weeklyKey (e : FeatRow) : Int × Int :=
  (e.dteday.year, isoWeek e.dteday)

/-- Weekly aggregate record: the named columns given to `weekly_agg.columns`. -/
structure WeeklyRec where
  year : Int
  week : Int
  total_rentals : Int
  casual_users : Int
  registered_users : Int
  avg_temp_celsius : ℚ
  avg_humidity_pct : ℚ
  avg_windspeed_kmh : ℚ
  week_start : Date
  week_end : Date
deriving DecidableEq

/-- Earliest date reachable from the seed `d` through the list (model of the
`min` reduction on a date column). -/
def minDateFrom (d : Date) (l : List Date) : Date :=
  l.foldl (fun a b => if dLe b a then b else a) d

/-- Latest date reachable from the seed `d` through the list (model of the
`max` reduction on a date column). -/
def maxDateFrom (d : Date) (l : List Date) : Date :=
  l.foldl (fun a b => if dLe a b then b else a) d

/-- Minimum of a date column; the empty case cannot arise for group columns. -/
def minDateList : List Date → Date
  | [] => ⟨0, 1, 1⟩
  | d :: t => minDateFrom d t

/-- Maximum of a date column; the empty case cannot arise for group columns. -/
def maxDateList : List Date → Date
  | [] => ⟨0, 1, 1⟩
  | d :: t => maxDateFrom d t

/-- One output row of `df.groupby(['year', 'week']).agg(...)` for the key
`k`, aggregating the rows `g` of that (year, week) group. -/
def mkWeeklyRec (k : Int × Int) (g : List FeatRow) : WeeklyRec where
  year := k.1
  week := k.2
  total_rentals := (g.map fun e => e.cnt).sum
  casual_users := (g.map fun e => e.casual).sum
  registered_users := (g.map fun e => e.registered).sum
  avg_temp_celsius := (g.map fun e => e.temp_celsius).sum / (g.length : ℚ)
  avg_humidity_pct := (g.map fun e => e.humidity_pct).sum / (g.length : ℚ)
  avg_windspeed_kmh := (g.map fun e => e.windspeed_kmh).sum / (g.length : ℚ)
  week_start := minDateList (g.map fun e => e.dteday)
  week_end := maxDateList (g.map fun e => e.dteday)

/-- Weekly aggregation of `transform_aggregations`: group the enriched table
by (calendar year, ISO week number) and reduce each group. -/
def weeklyAgg (l : List FeatRow) : List WeeklyRec :=
  (groupKeys weeklyKey pairLe l).map fun k =>
    mkWeeklyRec k (l.filter fun e => decide (weeklyKey e = k))

/-- Aggregator stage `transform_aggregations`: the daily and weekly rollups
of the enriched table. -/
def transform_aggregations (l : List FeatRow) : List DailyRec × List WeeklyRec :=
  (dailyAgg l, weeklyAgg l)

/-- Date-range validation of `extract_and_validate`:
`min_date.year >= 2011 and max_date.year <= 2012`. On the empty table the
datetime minimum is undefined and the check cannot succeed; the claims under
verification only concern tables with at least one parsed date. -/
def dateRangeOk : List Date → Bool
  | [] => false
  | d :: t =>
      decide (2011 ≤ (minDateFrom d t).year) && decide ((maxDateFrom d t).year ≤ 2012)

/-- Projection of a cleaned row back onto the 17 original columns, reading
the coerced categorical integers back as rationals. -/
def projRow (c : CleanRow) : Row where
  instant := c.instant
  dteday := c.dteday
  season := (c.season : ℚ)
  yr := (c.yr : ℚ)
  mnth := (c.mnth : ℚ)
  hr := (c.hr : ℚ)
  holiday := (c.holiday : ℚ)
  weekday := (c.weekday : ℚ)
  workingday := (c.workingday : ℚ)
  weathersit := (c.weathersit : ℚ)
  temp := c.temp
  atemp := c.atemp
  hum := c.hum
  windspeed := c.windspeed
  casual := c.casual
  registered := c.registered
  cnt := c.cnt

/-- The eight nominally categorical columns of a validated row hold integer
values (no fractional part), as in the source dataset. -/
def intCoded (r : Row) : Prop :=
  r.season.den = 1 ∧ r.yr.den = 1 ∧ r.mnth.den = 1 ∧ r.hr.den = 1 ∧
    r.holiday.den = 1 ∧ r.weekday.den = 1 ∧ r.workingday.den = 1 ∧
    r.weathersit.den = 1

instance (r : Row) : Decidable (intCoded r) := by
  unfold intCoded
  infer_instance

/-- Weather codes of the rows of a given date, in table order: the column
passed to the modal-weather reduction of the daily aggregation. -/
def weatherOf (l : List FeatRow) (k : Date) : List Int :=
  (l.filter fun e => decide (e.dteday = k)).map fun e => e.weathersit

/-- Sample date used by the concrete witnesses below. -/
def day1 : Date := ⟨2011, 1, 1⟩

/-- Sample validated row used by the concrete witnesses below. -/
def baseRow : Row where
  instant := 1
  dteday := day1
  season := 1
  yr := 0
  mnth := 1
  hr := 0
  holiday := 0
  weekday := 6
  workingday := 0
  weathersit := 1
  temp := 1/2
  atemp := 1/2
  hum := 1/2
  windspeed := 0
  casual := 3
  registered := 5
  cnt := 8

/-- Sample validated table satisfying the count invariant. -/
def rows4 : List Row := [baseRow]

/-- Sample parsed date column with dates in 2011 and 2012. -/
def dates5 : List Date := [⟨2011, 5, 4⟩, ⟨2012, 12, 31⟩]

/-- Sample validated row whose fractional hour value survives validation. -/
def rowHr36over5 : Row := { baseRow with hr := 36/5 }

/-- Second sample row of the same date, with a different fractional hour that
truncates to the same integer hour. -/
def rowHr15over2 : Row := { baseRow with instant := 2, hr := 15/2 }

/-- Sample validated table whose two rows have distinct fractional
`(dteday, hr)` keys that collide after integer coercion. -/
def rows8 : List Row := [rowHr36over5, rowHr15over2]

/-- Sample validated table with integer hours. -/
def rows8ok : List Row := [baseRow, { baseRow with instant := 2, hr := 1 }]

/-- Sample validated table with integer categorical codes. -/
def rows10 : List Row := [baseRow, { baseRow with instant := 2, hr := 2 }]

/-- Sample cleaned row whose season code 5 lies outside the enumerated
domain 1..4. -/
def badSeasonRow : CleanRow := cleanRow { baseRow with season := 5 }

/-- Sample cleaned row with hour `n`, used for the peak-hour boundary checks. -/
def hrRow (n : Int) : CleanRow := cleanRow { baseRow with hr := (n : ℚ) }

/-- Sample enriched row dated 2011-01-01, a date whose ISO year is 2010. -/
def featJan1 : FeatRow := enrichRow (cleanRow baseRow)

/-- Sample enriched rows sharing the date 2011-01-01 with tied weather codes
3 and 1 (one occurrence each). -/
def featW3 : FeatRow := enrichRow (cleanRow { baseRow with weathersit := 3 })

/-- Second enriched row of the tied-mode sample, with weather code 1. -/
def featW1 : FeatRow := enrichRow (cleanRow { baseRow with instant := 2, hr := 1, weathersit := 1 })

/-- Sample enriched table with a two-way tie of weather codes on one date. -/
def rows9 : List FeatRow := [featW3, featW1]

/-- The daily aggregate row of the tied-mode sample table. -/
def dayRec9 : DailyRec := mkDailyRec day1 (rows9.filter fun e => decide (e.dteday = day1))

/-! Basic facts about the chronological order on dates. -/

theorem dLe_refl (a : Date) : dLe a a := by
  unfold dLe
  omega

theorem dLe_trans {a b c : Date} (h1 : dLe a b) (h2 : dLe b c) : dLe a c := by
  unfold dLe at *
  omega

theorem dLe_total (a b : Date) : dLe a b ∨ dLe b a := by
  unfold dLe
  omega

theorem dLe_year {a b : Date} (h : dLe a b) : a.year ≤ b.year := by
  unfold dLe at h
  omega

theorem minDateFrom_cons (d b : Date) (t : List Date) :
    minDateFrom d (b :: t) = minDateFrom (if dLe b d then b else d) t := rfl

theorem maxDateFrom_cons (d b : Date) (t : List Date) :
    maxDateFrom d (b :: t) = maxDateFrom (if dLe d b then b else d) t := rfl

theorem minDateFrom_mem (d : Date) (l : List Date) : minDateFrom d l ∈ d :: l := by
  induction l generalizing d with
  | nil => simp [minDateFrom]
  | cons b t ih =>
    rw [minDateFrom_cons]
    rcases mem_cons.mp (ih (if dLe b d then b else d)) with h | h
    · rw [h]
      split
      · exact mem_cons_of_mem d (mem_cons_self b t)
      · exact mem_cons_self d (b :: t)
    · exact mem_cons_of_mem d (mem_cons_of_mem b h)

theorem maxDateFrom_mem (d : Date) (l : List Date) : maxDateFrom d l ∈ d :: l := by
  induction l generalizing d with
  | nil => simp [maxDateFrom]
  | cons b t ih =>
    rw [maxDateFrom_cons]
    rcases mem_cons.mp (ih (if dLe d b then b else d)) with h | h
    · rw [h]
      split
      · exact mem_cons_of_mem d (mem_cons_self b t)
      · exact mem_cons_self d (b :: t)
    · exact mem_cons_of_mem d (mem_cons_of_mem b h)

theorem minDateFrom_le (d : Date) (l : List Date) :
    ∀ x ∈ d :: l, dLe (minDateFrom d l) x := by
  induction l generalizing d with
  | nil =>
    intro x hx
    rw [mem_singleton.mp hx]
    exact dLe_refl d
  | cons b t ih =>
    intro x hx
    rw [minDateFrom_cons]
    have hseed : ∀ y ∈ (if dLe b d then b else d) :: t,
        dLe (minDateFrom (if dLe b d then b else d) t) y := ih _
    have hhead := hseed _ (mem_cons_self _ t)
    have hd : dLe (minDateFrom (if dLe b d then b else d) t) d := by
      rcases dLe_total b d with hbd | hdb
      · rw [if_pos hbd] at hhead ⊢
        exact dLe_trans hhead hbd
      · by_cases hbd : dLe b d
        · rw [if_pos hbd] at hhead ⊢
          exact dLe_trans hhead hbd
        · rw [if_neg hbd] at hhead ⊢
          exact hhead
    have hb : dLe (minDateFrom (if dLe b d then b else d) t) b := by
      by_cases hbd : dLe b d
      · rw [if_pos hbd] at hhead ⊢
        exact hhead
      · rw [if_neg hbd] at hhead ⊢
        rcases dLe_total b d with hbd2 | hdb
        · exact absurd hbd2 hbd
        · exact dLe_trans hhead hdb
    rcases mem_cons.mp hx with hxd | hx2
    · rw [hxd]
      exact hd
    · rcases mem_cons.mp hx2 with hxb | hxt
      · rw [hxb]
        exact hb
      · exact hseed _ (mem_cons_of_mem _ hxt)

theorem maxDateFrom_ge (d : Date) (l : List Date) :
    ∀ x ∈ d :: l, dLe x (maxDateFrom d l) := by
  induction l generalizing d with
  | nil =>
    intro x hx
    rw [mem_singleton.mp hx]
    exact dLe_refl d
  | cons b t ih =>
    intro x hx
    rw [maxDateFrom_cons]
    have hseed : ∀ y ∈ (if dLe d b then b else d) :: t,
        dLe y (maxDateFrom (if dLe d b then b else d) t) := ih _
    have hhead := hseed _ (mem_cons_self _ t)
    have hd : dLe d (maxDateFrom (if dLe d b then b else d) t) := by
      by_cases hdb : dLe d b
      · rw [if_pos hdb] at hhead ⊢
        exact dLe_trans hdb hhead
      · rw [if_neg hdb] at hhead ⊢
        exact hhead
    have hb : dLe b (maxDateFrom (if dLe d b then b else d) t) := by
      by_cases hdb : dLe d b
      · rw [if_pos hdb] at hhead ⊢
        exact hhead
      · rw [if_neg hdb] at hhead ⊢
        rcases dLe_total d b with hdb2 | hbd
        · exact absurd hdb2 hdb
        · exact dLe_trans hbd hhead
    rcases mem_cons.mp hx with hxd | hx2
    · rw [hxd]
      exact hd
    · rcases mem_cons.mp hx2 with hxb | hxt
      · rw [hxb]
        exact hb
      · exact hseed _ (mem_cons_of_mem _ hxt)

/-! Facts about first-occurrence deduplication. -/

theorem dropDupAux_sublist (key : α → κ) [DecidableEq κ] (l : List α) :
    ∀ seen : List κ, List.Sublist (dropDupAux key l seen) l := by
  induction l with
  | nil =>
    intro seen
    simp [dropDupAux]
  | cons a t ih =>
    intro seen
    unfold dropDupAux
    split
    · exact (ih seen).cons a
    · exact (ih (key a :: seen)).cons₂ a

theorem dropDupAux_keys (key : α → κ) [DecidableEq κ] (l : List α) :
    ∀ seen : List κ, ((dropDupAux key l seen).map key).Nodup ∧
      ∀ k ∈ (dropDupAux key l seen).map key, k ∉ seen := by
  induction l with
  | nil =>
    intro seen
    simp [dropDupAux]
  | cons a t ih =>
    intro seen
    unfold dropDupAux
    split
    · exact ⟨(ih seen).1, (ih seen).2⟩
    · rename_i hnot
      obtain ⟨hnd, hns⟩ := ih (key a :: seen)
      refine ⟨?_, ?_⟩
      · rw [map_cons, nodup_cons]
        refine ⟨fun hmem => ?_, hnd⟩
        exact (hns _ hmem) (mem_cons_self _ _)
      · intro k hk
        rw [map_cons] at hk
        rcases mem_cons.mp hk with hk1 | hk2
        · rw [hk1]
          exact hnot
        · intro hks
          exact (hns _ hk2) (mem_cons_of_mem _ hks)

theorem dropDupAux_eq_self (key : α → κ) [DecidableEq κ] (l : List α) :
    ∀ seen : List κ, (∀ a ∈ l, key a ∉ seen) → (l.map key).Nodup →
      dropDupAux key l seen = l := by
  induction l with
  | nil =>
    intro seen _ _
    rfl
  | cons a t ih =>
    intro seen hseen hnd
    unfold dropDupAux
    rw [if_neg (hseen a (mem_cons_self a t))]
    rw [map_cons, nodup_cons] at hnd
    refine congrArg (a :: ·) (ih (key a :: seen) ?_ hnd.2)
    intro b hb hmem
    rcases mem_cons.mp hmem with h1 | h2
    · exact hnd.1 (h1 ▸ mem_map_of_mem key hb)
    · exact hseen b (mem_cons_of_mem a hb) h2

theorem dropDupAux_map (f : α → β) (key2 : β → κ) [DecidableEq κ] (l : List α) :
    ∀ seen : List κ,
      dropDupAux key2 (l.map f) seen = (dropDupAux (fun a => key2 (f a)) l seen).map f := by
  induction l with
  | nil =>
    intro seen
    rfl
  | cons a t ih =>
    intro seen
    rw [map_cons]
    by_cases h : key2 (f a) ∈ seen <;> simp [dropDupAux, h, ih]

theorem dropDuplicates_sublist (key : α → κ) [DecidableEq κ] (l : List α) :
    List.Sublist (dropDuplicates key l) l :=
  dropDupAux_sublist key l []

theorem dropDuplicates_keys_nodup (key : α → κ) [DecidableEq κ] (l : List α) :
    ((dropDuplicates key l).map key).Nodup :=
  (dropDupAux_keys key l []).1

theorem dropDuplicates_eq_self (key : α → κ) [DecidableEq κ] {l : List α}
    (h : (l.map key).Nodup) : dropDuplicates key l = l :=
  dropDupAux_eq_self key l [] (fun a _ => not_mem_nil (key a)) h

theorem mem_of_mem_dropDuplicates (key : α → κ) [DecidableEq κ] {l : List α} {a : α}
    (h : a ∈ dropDuplicates key l) : a ∈ l :=
  (dropDuplicates_sublist key l).mem h

/-! Facts about the integer coercion. -/

theorem truncQ_den_one {q : ℚ} (h : q.den = 1) : truncQ q = q.num := by
  unfold truncQ Rat.floor Rat.ceil
  split <;> simp [h]

theorem truncQ_cast {q : ℚ} (h : q.den = 1) : ((truncQ q : Int) : ℚ) = q := by
  rw [truncQ_den_one h]
  exact (Rat.den_eq_one_iff q).mp h

/-! Summation over partitions into groups. -/

theorem sum_map_add (f g : α → Int) (l : List α) :
    (l.map fun a => f a + g a).sum = (l.map f).sum + (l.map g).sum := by
  induction l with
  | nil => simp
  | cons a t ih =>
    simp only [map_cons, sum_cons, ih]
    omega

theorem sum_split (f : α → Int) (p : α → Bool) (l : List α) :
    ((l.filter p).map f).sum + ((l.filter fun a => !(p a)).map f).sum = (l.map f).sum := by
  induction l with
  | nil => simp
  | cons a t ih =>
    rcases Bool.eq_false_or_eq_true (p a) with h | h <;>
      · simp [filter_cons, h]
        omega

theorem sum_over_groups (key : α → κ) [DecidableEq κ] (f : α → Int) (K : List κ) :
    ∀ l : List α, K.Nodup → (∀ a ∈ l, key a ∈ K) →
      (K.map fun k => ((l.filter fun a => decide (key a = k)).map f).sum).sum
        = (l.map f).sum := by
  induction K with
  | nil =>
    intro l _ hcov
    have hl : l = [] := eq_nil_iff_forall_not_mem.mpr
      fun a ha => not_mem_nil (key a) (hcov a ha)
    rw [hl]
    rfl
  | cons k K ih =>
    intro l hnd hcov
    rw [nodup_cons] at hnd
    have hsplit := sum_split f (fun a => decide (key a = k)) l
    have hrest : ∀ k2 ∈ K,
        (l.filter fun a => decide (key a = k2))
          = ((l.filter fun a => !(decide (key a = k))).filter fun a => decide (key a = k2)) := by
      intro k2 hk2
      rw [filter_filter]
      refine (filter_congr fun a _ => ?_).symm
      by_cases h : key a = k2
      · have hk2k : ¬k2 = k := fun hkk => hnd.1 (hkk ▸ hk2)
        simp [h, hk2k]
      · simp [h]
    have hcov2 : ∀ a ∈ l.filter fun a => !(decide (key a = k)), key a ∈ K := by
      intro a ha
      rw [mem_filter] at ha
      have : ¬(key a = k) := by simpa using ha.2
      rcases mem_cons.mp (hcov a ha.1) with h1 | h2
      · exact absurd h1 this
      · exact h2
    have hmaps : (K.map fun k2 => ((l.filter fun a => decide (key a = k2)).map f).sum)
        = (K.map fun k2 =>
            (((l.filter fun a => !(decide (key a = k))).filter
                fun a => decide (key a = k2)).map f).sum) :=
      map_congr_left fun k2 hk2 => by rw [hrest k2 hk2]
    rw [map_cons, sum_cons, hmaps, ih _ hnd.2 hcov2]
    exact hsplit

/-! Facts about group keys. -/

theorem groupKeys_nodup (key : α → κ) (le : κ → κ → Prop) [DecidableRel le]
    [DecidableEq κ] (l : List α) : (groupKeys key le l).Nodup :=
  (perm_insertionSort le ((l.map key).dedup)).symm.nodup (nodup_dedup (l.map key))

theorem mem_groupKeys (key : α → κ) (le : κ → κ → Prop) [DecidableRel le]
    [DecidableEq κ] (l : List α) (k : κ) :
    k ∈ groupKeys key le l ↔ ∃ a ∈ l, key a = k := by
  unfold groupKeys
  rw [mem_insertionSort, mem_dedup, mem_map]

theorem key_mem_groupKeys (key : α → κ) (le : κ → κ → Prop) [DecidableRel le]
    [DecidableEq κ] {l : List α} {a : α} (h : a ∈ l) : key a ∈ groupKeys key le l :=
  (mem_groupKeys key le l (key a)).mpr ⟨a, h, rfl⟩

/-! Facts about the modal-weather computation. -/

theorem foldr_max_perm {l1 l2 : List Nat} (p : List.Perm l1 l2) (a : Nat) :
    l1.foldr max a = l2.foldr max a := by
  induction p with
  | nil => rfl
  | cons x _ ih => simp only [foldr_cons, ih]
  | swap x y t => simp only [foldr_cons]; exact max_left_comm y x (t.foldr max a)
  | trans _ _ ih1 ih2 => rw [ih1, ih2]

theorem argmax_le (g : α → Nat) (l : List α) :
    ∀ v ∈ l, g v ≤ (l.map g).foldr max 0 := by
  induction l with
  | nil => simp
  | cons a t ih =>
    intro v hv
    rw [map_cons, foldr_cons]
    rcases mem_cons.mp hv with h | h
    · rw [h]
      exact le_max_left _ _
    · exact le_trans (ih v h) (le_max_right _ _)

theorem argmax_mem (g : α → Nat) (l : List α) (h : l ≠ []) :
    ∃ v ∈ l, g v = (l.map g).foldr max 0 := by
  induction l with
  | nil => exact absurd rfl h
  | cons a t ih =>
    rcases eq_or_ne t [] with ht | ht
    · refine ⟨a, mem_cons_self a t, ?_⟩
      rw [ht]
      simp
    · obtain ⟨v, hv, hgv⟩ := ih ht
      rw [map_cons, foldr_cons]
      rcases le_total ((t.map g).foldr max 0) (g a) with hle | hle
      · exact ⟨a, mem_cons_self a t, (max_eq_left hle).symm⟩
      · exact ⟨v, mem_cons_of_mem a hv, by rw [hgv]; exact (max_eq_right hle).symm⟩

theorem count_le_maxCount {l : List Int} {v : Int} (h : v ∈ l) :
    l.count v ≤ maxCount l :=
  argmax_le (fun u => l.count u) l v h

theorem maxCount_attained {l : List Int} (h : l ≠ []) :
    ∃ v ∈ l, l.count v = maxCount l :=
  argmax_mem (fun u => l.count u) l h

theorem mem_modeList {l : List Int} {u : Int} :
    u ∈ modeList l ↔ u ∈ l ∧ l.count u = maxCount l := by
  unfold modeList
  rw [mem_filter, mem_insertionSort, mem_dedup]
  simp

theorem modeList_ne_nil {l : List Int} (h : l ≠ []) : modeList l ≠ [] := by
  obtain ⟨v, hv, hc⟩ := maxCount_attained h
  intro hnil
  have hmem := mem_modeList.mpr ⟨hv, hc⟩
  rw [hnil] at hmem
  exact not_mem_nil v hmem

theorem modeList_sorted (l : List Int) : List.Sorted (· ≤ ·) (modeList l) :=
  (sorted_insertionSort (· ≤ ·) (l.dedup)).sublist (filter_sublist _)

theorem mostCommon_spec (l : List Int) (h : l ≠ []) :
    mostCommon l ∈ l ∧ l.count (mostCommon l) = maxCount l ∧
      ∀ u ∈ l, l.count u = maxCount l → mostCommon l ≤ u := by
  rcases hm : modeList l with _ | ⟨m, t⟩
  · exact absurd hm (modeList_ne_nil h)
  · have hmc : mostCommon l = m := by
      unfold mostCommon
      rw [hm]
      rfl
    have hmem : m ∈ modeList l := by
      rw [hm]
      exact mem_cons_self m t
    obtain ⟨hml, hcnt⟩ := mem_modeList.mp hmem
    refine ⟨hmc ▸ hml, hmc ▸ hcnt, ?_⟩
    intro u hu hcu
    have humem : u ∈ modeList l := mem_modeList.mpr ⟨hu, hcu⟩
    rw [hm] at humem
    rw [hmc]
    rcases mem_cons.mp humem with h1 | h2
    · rw [h1]
    · exact rel_of_sorted_cons (hm ▸ modeList_sorted l) u h2

theorem maxCount_perm {l1 l2 : List Int} (p : List.Perm l1 l2) :
    maxCount l1 = maxCount l2 := by
  unfold maxCount
  have hfn : (fun v => l1.count v) = fun v => l2.count v :=
    funext fun v => p.count_eq v
  rw [hfn]
  exact foldr_max_perm (p.map fun v => l2.count v) 0

theorem modeList_perm {l1 l2 : List Int} (p : List.Perm l1 l2) :
    modeList l1 = modeList l2 := by
  unfold modeList
  have hsort : l1.dedup.insertionSort (· ≤ ·) = l2.dedup.insertionSort (· ≤ ·) :=
    eq_of_perm_of_sorted
      (((perm_insertionSort _ l1.dedup).trans p.dedup).trans
        (perm_insertionSort _ l2.dedup).symm)
      (sorted_insertionSort _ _) (sorted_insertionSort _ _)
  rw [hsort]
  refine filter_congr fun v _ => ?_
  rw [p.count_eq v, maxCount_perm p]

theorem mostCommon_perm {l1 l2 : List Int} (p : List.Perm l1 l2) :
    mostCommon l1 = mostCommon l2 := by
  unfold mostCommon
  rw [modeList_perm p]
  rcases hm : modeList l2 with _ | ⟨m, t⟩
  · rcases eq_or_ne l2 [] with h2 | h2
    · rw [h2] at p ⊢
      rw [p.eq_nil]
    · exact absurd hm (modeList_ne_nil h2)
  · rfl

/-! Membership in the aggregate tables. -/

theorem mem_dailyAgg {l : List FeatRow} {d : DailyRec} (hd : d ∈ dailyAgg l) :
    d = mkDailyRec d.date (l.filter fun e => decide (e.dteday = d.date)) := by
  unfold dailyAgg at hd
  obtain ⟨k, _, rfl⟩ := mem_map.mp hd
  rfl

theorem mem_weeklyAgg {l : List FeatRow} {w : WeeklyRec} (hw : w ∈ weeklyAgg l) :
    w = mkWeeklyRec (w.year, w.week) (l.filter fun e => decide (weeklyKey e = (w.year, w.week))) := by
  unfold weeklyAgg at hw
  obtain ⟨k, _, rfl⟩ := mem_map.mp hw
  rfl

/-! Facts about the label dictionaries and the per-row transforms. -/

theorem season_map_eq_none (s : Int) : season_map s = none ↔ ¬(1 ≤ s ∧ s ≤ 4) := by
  unfold season_map
  split_ifs <;> simp <;> omega

theorem weather_map_eq_none (w : Int) : weather_map w = none ↔ ¬(1 ≤ w ∧ w ≤ 4) := by
  unfold weather_map
  split_ifs <;> simp <;> omega

theorem day_map_eq_none (d : Int) : day_map d = none ↔ ¬(0 ≤ d ∧ d ≤ 6) := by
  unfold day_map
  split_ifs <;> simp <;> omega

set_option maxHeartbeats 1000000 in
theorem month_map_eq_none (m : Int) : month_map m = none ↔ ¬(1 ≤ m ∧ m ≤ 12) := by
  unfold month_map
  split_ifs <;> simp <;> omega

theorem projRow_cleanRow {r : Row} (h : intCoded r) : projRow (cleanRow r) = r := by
  obtain ⟨h1, h2, h3, h4, h5, h6, h7, h8⟩ := h
  cases r
  unfold projRow cleanRow
  rw [Row.mk.injEq]
  exact ⟨rfl, rfl, truncQ_cast h1, truncQ_cast h2, truncQ_cast h3, truncQ_cast h4,
    truncQ_cast h5, truncQ_cast h6, truncQ_cast h7, truncQ_cast h8,
    rfl, rfl, rfl, rfl, rfl, rfl, rfl⟩

theorem agg_group_inv (g : List FeatRow) (h : ∀ e ∈ g, e.casual + e.registered = e.cnt) :
    (g.map fun e => e.casual).sum + (g.map fun e => e.registered).sum
      = (g.map fun e => e.cnt).sum := by
  rw [← sum_map_add]
  exact congrArg List.sum (map_congr_left h)

attribute [local semireducible] Rat.mul Rat.inv Rat.add Rat.sub Rat.ofScientific

/-- Claim C1: for every enriched table, the sum of `total_rentals` over the
daily aggregate and the sum of `total_rentals` over the weekly aggregate both
equal the sum of the `cnt` column over the rows of the enriched table. -/
theorem claim_C1 (l : List FeatRow) :
    (((transform_aggregations l).1.map fun d => d.total_rentals).sum
        = (l.map fun e => e.cnt).sum) ∧
    (((transform_aggregations l).2.map fun w => w.total_rentals).sum
        = (l.map fun e => e.cnt).sum) := by
  constructor
  · show ((dailyAgg l).map fun d => d.total_rentals).sum = _
    unfold dailyAgg
    rw [map_map]
    exact sum_over_groups (fun e => e.dteday) (fun e => e.cnt)
      (groupKeys (fun e => e.dteday) dLe l) l
      (groupKeys_nodup (fun e => e.dteday) dLe l)
      (fun a ha => key_mem_groupKeys (fun e => e.dteday) dLe ha)
  · show ((weeklyAgg l).map fun w => w.total_rentals).sum = _
    unfold weeklyAgg
    rw [map_map]
    exact sum_over_groups weeklyKey (fun e => e.cnt)
      (groupKeys weeklyKey pairLe l) l
      (groupKeys_nodup weeklyKey pairLe l)
      (fun a ha => key_mem_groupKeys weeklyKey pairLe ha)

/-- Claim C2, corrected: the weekly aggregate has exactly one row per
distinct key pair, and the key pair of a row is (calendar year of its date,
ISO week number of its date) — the calendar year `dt.year`, not the ISO
year. -/
theorem claim_C2_amended (l : List FeatRow) :
    ((weeklyAgg l).map fun v => (v.year, v.week)).Nodup ∧
    ∀ y w : Int, ((y, w) ∈ (weeklyAgg l).map fun v => (v.year, v.week)) ↔
      ∃ e ∈ l, e.dteday.year = y ∧ isoWeek e.dteday = w := by
  have hkeys : ((weeklyAgg l).map fun v => (v.year, v.week))
      = groupKeys weeklyKey pairLe l := by
    unfold weeklyAgg
    rw [map_map]
    have hcomp : ((fun v : WeeklyRec => (v.year, v.week)) ∘ fun k =>
        mkWeeklyRec k (l.filter fun e => decide (weeklyKey e = k)))
        = id := by
      funext k
      rfl
    rw [hcomp, map_id]
  constructor
  · rw [hkeys]
    exact groupKeys_nodup weeklyKey pairLe l
  · intro y w
    rw [hkeys, mem_groupKeys]
    constructor
    · rintro ⟨e, he, hk⟩
      unfold weeklyKey at hk
      exact ⟨e, he, congrArg Prod.fst hk, congrArg Prod.snd hk⟩
    · rintro ⟨e, he, hy, hw⟩
      refine ⟨e, he, ?_⟩
      unfold weeklyKey
      rw [hy, hw]

/-- Claim C2, counterexample: a table whose single row is dated 2011-01-01
(ISO year 2010, ISO week 52) is grouped under the pair (2011, 52) — the
calendar year — not under its ISO year 2010 as the claim states. -/
theorem claim_C2_counterexample :
    ((weeklyAgg [featJan1]).map fun v => (v.year, v.week)) = [((2011 : Int), (52 : Int))] ∧
    featJan1.dteday = day1 ∧
    (isoYear day1, isoWeek day1) = ((2010 : Int), (52 : Int)) ∧
    (2011 : Int) ≠ 2010 := by
  refine ⟨by decide, rfl, by decide, by decide⟩

/-- Claim C3, corrected: the Feature Enricher never fails on an out-of-domain
code; it keeps every row and assigns the row a missing (`none`) label exactly
when the code lies outside the enumerated domain. -/
theorem claim_C3_amended (l : List CleanRow) (c : CleanRow) (hc : c ∈ l) :
    (transform_feature_engineering l).length = l.length ∧
    enrichRow c ∈ transform_feature_engineering l ∧
    ((enrichRow c).season_name = none ↔ ¬(1 ≤ c.season ∧ c.season ≤ 4)) ∧
    ((enrichRow c).weather_desc = none ↔ ¬(1 ≤ c.weathersit ∧ c.weathersit ≤ 4)) ∧
    ((enrichRow c).day_name = none ↔ ¬(0 ≤ c.weekday ∧ c.weekday ≤ 6)) ∧
    ((enrichRow c).month_name = none ↔ ¬(1 ≤ c.mnth ∧ c.mnth ≤ 12)) :=
  ⟨length_map l enrichRow, mem_map_of_mem enrichRow hc,
    season_map_eq_none c.season, weather_map_eq_none c.weathersit,
    day_map_eq_none c.weekday, month_map_eq_none c.mnth⟩

/-- Claim C3, witness for the corrected claim at a concrete row with season
code 5. -/
theorem claim_C3_witness :
    (badSeasonRow ∈ [badSeasonRow]) ∧
    ((transform_feature_engineering [badSeasonRow]).length = [badSeasonRow].length ∧
      enrichRow badSeasonRow ∈ transform_feature_engineering [badSeasonRow] ∧
      ((enrichRow badSeasonRow).season_name = none ↔
        ¬(1 ≤ badSeasonRow.season ∧ badSeasonRow.season ≤ 4)) ∧
      ((enrichRow badSeasonRow).weather_desc = none ↔
        ¬(1 ≤ badSeasonRow.weathersit ∧ badSeasonRow.weathersit ≤ 4)) ∧
      ((enrichRow badSeasonRow).day_name = none ↔
        ¬(0 ≤ badSeasonRow.weekday ∧ badSeasonRow.weekday ≤ 6)) ∧
      ((enrichRow badSeasonRow).month_name = none ↔
        ¬(1 ≤ badSeasonRow.mnth ∧ badSeasonRow.mnth ≤ 12))) :=
  ⟨by decide, claim_C3_amended [badSeasonRow] badSeasonRow (by decide)⟩

/-- Claim C3, counterexample: on a cleaned table holding a row with season
code 5 the Enricher succeeds (the row count is preserved) and yields a
missing `season_name` for that row, instead of failing the stage. -/
theorem claim_C3_counterexample :
    (transform_feature_engineering [badSeasonRow]).map (fun e => e.season_name) = [none] ∧
    (transform_feature_engineering [badSeasonRow]).length = 1 ∧
    badSeasonRow.season = 5 := by
  refine ⟨by decide, rfl, by decide⟩

/-- Claim C4: the Cleaner and Enricher copy `casual`, `registered` and `cnt`
unchanged; if every input row satisfies `casual + registered = cnt`, then so
does every row of the cleaned and the enriched tables, and in both aggregate
tables every row satisfies `casual_users + registered_users =
total_rentals`. -/
theorem claim_C4 (l : List Row) (hinv : ∀ r ∈ l, r.casual + r.registered = r.cnt) :
    (∀ r : Row, (cleanRow r).casual = r.casual ∧ (cleanRow r).registered = r.registered ∧
        (cleanRow r).cnt = r.cnt) ∧
    (∀ c : CleanRow, (enrichRow c).casual = c.casual ∧
        (enrichRow c).registered = c.registered ∧ (enrichRow c).cnt = c.cnt) ∧
    (∀ c ∈ transform_clean_and_denormalize l, c.casual + c.registered = c.cnt) ∧
    (∀ e ∈ transform_feature_engineering (transform_clean_and_denormalize l),
        e.casual + e.registered = e.cnt) ∧
    (∀ d ∈ dailyAgg (transform_feature_engineering (transform_clean_and_denormalize l)),
        d.casual_users + d.registered_users = d.total_rentals) ∧
    (∀ w ∈ weeklyAgg (transform_feature_engineering (transform_clean_and_denormalize l)),
        w.casual_users + w.registered_users = w.total_rentals) := by
  have hclean : ∀ c ∈ transform_clean_and_denormalize l,
      c.casual + c.registered = c.cnt := by
    intro c hc
    obtain ⟨r, hr, rfl⟩ := mem_map.mp hc
    exact hinv r (mem_of_mem_dropDuplicates rowKey hr)
  have henr : ∀ e ∈ transform_feature_engineering (transform_clean_and_denormalize l),
      e.casual + e.registered = e.cnt := by
    intro e he
    obtain ⟨c, hc, rfl⟩ := mem_map.mp he
    exact hclean c hc
  refine ⟨fun r => ⟨rfl, rfl, rfl⟩, fun c => ⟨rfl, rfl, rfl⟩, hclean, henr, ?_, ?_⟩
  · intro d hd
    rw [mem_dailyAgg hd]
    exact agg_group_inv _ fun e he => henr e (mem_filter.mp he).1
  · intro w hw
    rw [mem_weeklyAgg hw]
    exact agg_group_inv _ fun e he => henr e (mem_filter.mp he).1

/-- Claim C4, witness at a concrete one-row table satisfying the count
invariant. -/
theorem claim_C4_witness :
    (∀ r ∈ rows4, r.casual + r.registered = r.cnt) ∧
    ((∀ r : Row, (cleanRow r).casual = r.casual ∧ (cleanRow r).registered = r.registered ∧
        (cleanRow r).cnt = r.cnt) ∧
    (∀ c : CleanRow, (enrichRow c).casual = c.casual ∧
        (enrichRow c).registered = c.registered ∧ (enrichRow c).cnt = c.cnt) ∧
    (∀ c ∈ transform_clean_and_denormalize rows4, c.casual + c.registered = c.cnt) ∧
    (∀ e ∈ transform_feature_engineering (transform_clean_and_denormalize rows4),
        e.casual + e.registered = e.cnt) ∧
    (∀ d ∈ dailyAgg (transform_feature_engineering (transform_clean_and_denormalize rows4)),
        d.casual_users + d.registered_users = d.total_rentals) ∧
    (∀ w ∈ weeklyAgg (transform_feature_engineering (transform_clean_and_denormalize rows4)),
        w.casual_users + w.registered_users = w.total_rentals)) :=
  ⟨by decide, claim_C4 rows4 (by decide)⟩

/-- Claim C5: on a nonempty parsed date column, the date-range check of the
Validator succeeds exactly when every date's year is 2011 or 2012: checking
the year of the minimum date against 2011 and the year of the maximum date
against 2012 settles the condition for every row. -/
theorem claim_C5 (l : List Date) (hne : l ≠ []) :
    dateRangeOk l = true ↔ ∀ dt ∈ l, dt.year = 2011 ∨ dt.year = 2012 := by
  cases l with
  | nil => exact absurd rfl hne
  | cons d t =>
    unfold dateRangeOk
    rw [Bool.and_eq_true, decide_eq_true_iff, decide_eq_true_iff]
    constructor
    · rintro ⟨hmin, hmax⟩ x hx
      have h1 := dLe_year (minDateFrom_le d t x hx)
      have h2 := dLe_year (maxDateFrom_ge d t x hx)
      omega
    · intro hall
      constructor
      · have hy := hall _ (minDateFrom_mem d t)
        omega
      · have hy := hall _ (maxDateFrom_mem d t)
        omega

/-- Claim C5, witness at a concrete two-row date column. -/
theorem claim_C5_witness :
    (dates5 ≠ []) ∧
    (dateRangeOk dates5 = true ↔ ∀ dt ∈ dates5, dt.year = 2011 ∨ dt.year = 2012) :=
  ⟨by decide, claim_C5 dates5 (by decide)⟩

/-- Claim C6: every row of the cleaned table carries the four denormalized
climate columns computed as `temp * 41`, `atemp * 50`, `hum * 100`,
`windspeed * 67` from its own normalized columns. -/
theorem claim_C6 (l : List Row) (c : CleanRow)
    (hc : c ∈ transform_clean_and_denormalize l) :
    c.temp_celsius = c.temp * 41 ∧ c.atemp_celsius = c.atemp * 50 ∧
      c.humidity_pct = c.hum * 100 ∧ c.windspeed_kmh = c.windspeed * 67 := by
  obtain ⟨r, _, rfl⟩ := mem_map.mp hc
  exact ⟨rfl, rfl, rfl, rfl⟩

/-- Claim C6, witness: a concrete row with `temp = 1/2` is denormalized to
exactly 20.5 °C. -/
theorem claim_C6_witness :
    (cleanRow baseRow ∈ transform_clean_and_denormalize [baseRow]) ∧
    ((cleanRow baseRow).temp_celsius = (cleanRow baseRow).temp * 41 ∧
      (cleanRow baseRow).atemp_celsius = (cleanRow baseRow).atemp * 50 ∧
      (cleanRow baseRow).humidity_pct = (cleanRow baseRow).hum * 100 ∧
      (cleanRow baseRow).windspeed_kmh = (cleanRow baseRow).windspeed * 67) ∧
    baseRow.temp = 1/2 ∧
    (cleanRow baseRow).temp_celsius = 20.5 :=
  ⟨by decide, claim_C6 [baseRow] (cleanRow baseRow) (by decide), by decide, by decide⟩

/-- Claim C7: a row of the enriched table has `is_peak_hour` true exactly
when its hour lies in [7, 9] or in [17, 19]. -/
theorem claim_C7 (l : List CleanRow) (e : FeatRow)
    (he : e ∈ transform_feature_engineering l) :
    e.is_peak_hour = true ↔ ((7 ≤ e.hr ∧ e.hr ≤ 9) ∨ (17 ≤ e.hr ∧ e.hr ≤ 19)) := by
  obtain ⟨c, _, rfl⟩ := mem_map.mp he
  exact decide_eq_true_iff

/-- Claim C7, witness: the boundary hours 6 and 10 are not peak and the hours
7, 8, 9, 17, 18, 19 are peak. -/
theorem claim_C7_witness :
    (enrichRow (hrRow 6) ∈ transform_feature_engineering [hrRow 6]) ∧
    ((enrichRow (hrRow 6)).is_peak_hour = true ↔
      ((7 ≤ (enrichRow (hrRow 6)).hr ∧ (enrichRow (hrRow 6)).hr ≤ 9) ∨
        (17 ≤ (enrichRow (hrRow 6)).hr ∧ (enrichRow (hrRow 6)).hr ≤ 19))) ∧
    (enrichRow (hrRow 6)).is_peak_hour = false ∧
    (enrichRow (hrRow 7)).is_peak_hour = true ∧
    (enrichRow (hrRow 8)).is_peak_hour = true ∧
    (enrichRow (hrRow 9)).is_peak_hour = true ∧
    (enrichRow (hrRow 10)).is_peak_hour = false ∧
    (enrichRow (hrRow 17)).is_peak_hour = true ∧
    (enrichRow (hrRow 18)).is_peak_hour = true ∧
    (enrichRow (hrRow 19)).is_peak_hour = true :=
  ⟨by decide, claim_C7 [hrRow 6] (enrichRow (hrRow 6)) (by decide),
    by decide, by decide, by decide, by decide, by decide, by decide, by decide, by decide⟩

/-- Claim C8, corrected: on a validated table whose `hr` values are integers,
re-running the Cleaner on its own output removes no further row, leaves the
row count unchanged, and returns the same table. Without that restriction,
distinct fractional hours may collide after `astype(int)` and the re-run
removes a row (see the counterexample). -/
theorem claim_C8_amended (l : List Row) (h : ∀ r ∈ l, r.hr.den = 1) :
    cleanAgain (transform_clean_and_denormalize l) = transform_clean_and_denormalize l ∧
    (cleanAgain (transform_clean_and_denormalize l)).length
      = (transform_clean_and_denormalize l).length := by
  have hmain : cleanAgain (transform_clean_and_denormalize l)
      = transform_clean_and_denormalize l := by
    unfold cleanAgain transform_clean_and_denormalize dropDuplicates
    rw [dropDupAux_map cleanRow cleanRowKey]
    have hnodup : ((dropDupAux rowKey l []).map fun r => cleanRowKey (cleanRow r)).Nodup := by
      have h1 : ((dropDupAux rowKey l []).map rowKey).Nodup := (dropDupAux_keys rowKey l []).1
      have hmm : ((dropDupAux rowKey l []).map fun r => cleanRowKey (cleanRow r))
          = ((dropDupAux rowKey l []).map rowKey).map fun p => (p.1, truncQ p.2) := by
        rw [map_map]
        rfl
      rw [hmm]
      refine h1.map_on ?_
      intro x hx y hy hxy
      obtain ⟨rx, hrx, hrxe⟩ := mem_map.mp hx
      obtain ⟨ry, hry, hrye⟩ := mem_map.mp hy
      have hdx : x.2.den = 1 := by
        rw [← hrxe]
        exact h rx ((dropDupAux_sublist rowKey l []).mem hrx)
      have hdy : y.2.den = 1 := by
        rw [← hrye]
        exact h ry ((dropDupAux_sublist rowKey l []).mem hry)
      rw [Prod.mk.injEq] at hxy
      obtain ⟨hfst, hsnd⟩ := hxy
      have hsnd2 : x.2 = y.2 := by
        have hcast := congrArg (fun z : Int => (z : ℚ)) hsnd
        simp only at hcast
        rwa [truncQ_cast hdx, truncQ_cast hdy] at hcast
      exact Prod.ext hfst hsnd2
    rw [dropDupAux_eq_self _ _ [] (fun a _ => not_mem_nil _) hnodup]
    rw [map_map]
    exact map_congr_left fun r _ => rfl
  exact ⟨hmain, by rw [hmain]⟩

/-- Claim C8, witness for the corrected claim at a concrete two-row table
with integer hours. -/
theorem claim_C8_witness :
    (∀ r ∈ rows8ok, r.hr.den = 1) ∧
    (cleanAgain (transform_clean_and_denormalize rows8ok)
        = transform_clean_and_denormalize rows8ok ∧
      (cleanAgain (transform_clean_and_denormalize rows8ok)).length
        = (transform_clean_and_denormalize rows8ok).length) :=
  ⟨by decide, claim_C8_amended rows8ok (by decide)⟩

/-- Claim C8, counterexample: a validated table with two rows of the same
date and hours 7.2 and 7.5 passes the first cleaning with both rows kept (the
keys differ), but the integer coercion maps both hours to 7, so a second run
of the Cleaner removes one more row: the Cleaner is not idempotent on every
validated table. -/
theorem claim_C8_counterexample :
    (transform_clean_and_denormalize rows8).length = 2 ∧
    (cleanAgain (transform_clean_and_denormalize rows8)).length = 1 ∧
    rowHr36over5.dteday = rowHr15over2.dteday ∧
    rowHr36over5.hr ≠ rowHr15over2.hr := by
  refine ⟨by decide, by decide, rfl, by decide⟩

/-- Claim C9: the modal weather code of a day with tied most-frequent codes
is the numerically smallest tied code, and the mode computation does not
depend on the order of the day's rows. -/
theorem claim_C9 (l : List FeatRow) (d : DailyRec) (hd : d ∈ dailyAgg l)
    (v w : Int) (hne : v ≠ w)
    (hv : v ∈ weatherOf l d.date) (hw : w ∈ weatherOf l d.date)
    (hvc : (weatherOf l d.date).count v = maxCount (weatherOf l d.date))
    (hwc : (weatherOf l d.date).count w = maxCount (weatherOf l d.date)) :
    d.most_common_weather ∈ weatherOf l d.date ∧
    (weatherOf l d.date).count d.most_common_weather = maxCount (weatherOf l d.date) ∧
    (∀ u ∈ weatherOf l d.date,
        (weatherOf l d.date).count u = maxCount (weatherOf l d.date) →
          d.most_common_weather ≤ u) ∧
    ∀ l2 : List Int, List.Perm l2 (weatherOf l d.date) →
      mostCommon l2 = d.most_common_weather := by
  have hnil : weatherOf l d.date ≠ [] := ne_nil_of_mem hv
  have hmc : d.most_common_weather = mostCommon (weatherOf l d.date) := by
    conv_lhs => rw [mem_dailyAgg hd]
    rfl
  obtain ⟨h1, h2, h3⟩ := mostCommon_spec (weatherOf l d.date) hnil
  rw [hmc]
  exact ⟨h1, h2, h3, fun l2 hp => mostCommon_perm hp⟩

/-- Claim C9, witness at a concrete one-day table with weather codes 3 and 1
tied at one occurrence each: the recorded modal code is 1, the smaller. -/
theorem claim_C9_witness :
    (dayRec9 ∈ dailyAgg rows9) ∧ ((1 : Int) ≠ 3) ∧
    (1 ∈ weatherOf rows9 dayRec9.date) ∧ (3 ∈ weatherOf rows9 dayRec9.date) ∧
    ((weatherOf rows9 dayRec9.date).count 1 = maxCount (weatherOf rows9 dayRec9.date)) ∧
    ((weatherOf rows9 dayRec9.date).count 3 = maxCount (weatherOf rows9 dayRec9.date)) ∧
    (dayRec9.most_common_weather ∈ weatherOf rows9 dayRec9.date ∧
      (weatherOf rows9 dayRec9.date).count dayRec9.most_common_weather
        = maxCount (weatherOf rows9 dayRec9.date) ∧
      (∀ u ∈ weatherOf rows9 dayRec9.date,
          (weatherOf rows9 dayRec9.date).count u = maxCount (weatherOf rows9 dayRec9.date) →
            dayRec9.most_common_weather ≤ u) ∧
      ∀ l2 : List Int, List.Perm l2 (weatherOf rows9 dayRec9.date) →
        mostCommon l2 = dayRec9.most_common_weather) ∧
    dayRec9.most_common_weather = 1 :=
  ⟨by decide, by decide, by decide, by decide, by decide, by decide,
    claim_C9 rows9 dayRec9 (by decide) 1 3 (by decide) (by decide) (by decide)
      (by decide) (by decide),
    by decide⟩

/-- Claim C10: on a validated table whose categorical columns are
integer-valued, the Cleaner leaves the 17 original column values of every
retained row unchanged in their original relative order; its only effects are
dropping later `(dteday, hr)` duplicates and appending the four computed
climate columns. -/
theorem claim_C10 (l : List Row) (h : ∀ r ∈ l, intCoded r) :
    (transform_clean_and_denormalize l).map projRow = dropDuplicates rowKey l ∧
    List.Sublist (dropDuplicates rowKey l) l ∧
    ((dropDuplicates rowKey l).map rowKey).Nodup ∧
    ∀ c ∈ transform_clean_and_denormalize l,
      c.temp_celsius = c.temp * 41 ∧ c.atemp_celsius = c.atemp * 50 ∧
        c.humidity_pct = c.hum * 100 ∧ c.windspeed_kmh = c.windspeed * 67 := by
  refine ⟨?_, dropDuplicates_sublist rowKey l, dropDuplicates_keys_nodup rowKey l, ?_⟩
  · unfold transform_clean_and_denormalize
    rw [map_map]
    have hpt : ∀ r ∈ dropDuplicates rowKey l, (projRow ∘ cleanRow) r = id r := fun r hr =>
      projRow_cleanRow (h r (mem_of_mem_dropDuplicates rowKey hr))
    rw [map_congr_left hpt, map_id]
  · intro c hc
    obtain ⟨r, _, rfl⟩ := mem_map.mp hc
    exact ⟨rfl, rfl, rfl, rfl⟩

/-- Claim C10, witness at a concrete two-row integer-coded table. -/
theorem claim_C10_witness :
    (∀ r ∈ rows10, intCoded r) ∧
    ((transform_clean_and_denormalize rows10).map projRow = dropDuplicates rowKey rows10 ∧
      List.Sublist (dropDuplicates rowKey rows10) rows10 ∧
      ((dropDuplicates rowKey rows10).map rowKey).Nodup ∧
      ∀ c ∈ transform_clean_and_denormalize rows10,
        c.temp_celsius = c.temp * 41 ∧ c.atemp_celsius = c.atemp * 50 ∧
          c.humidity_pct = c.hum * 100 ∧ c.windspeed_kmh = c.windspeed * 67) :=
  ⟨by decide, claim_C10 rows10 (by decide)⟩

end BikeETL
